import Mathlib

/-!
Verification of the Collatz core of `collatz_visualizer`.

The repository's algorithmic core is `src/collatz.rs`, with two pure
functions:

* `generate_sequence : u64 -> Vec<u64>` — iterates the Collatz map from a
  seed, with a special case for seed 0 and an overflow guard that stops the
  iteration (appending the current value a second time) whenever the next
  `3 * current + 1` step would exceed `u64::MAX`;
* `calculate_stats : &[u64] -> CollatzStats` — one aggregation pass
  computing length, the maximum value together with the last index where it
  occurs, even/odd counts, and the stopping time.

The embedding below models `u64` values as `ℕ`.  This is exact: the guard
`current > (u64::MAX - 1) / 3` is checked before every `3 * current + 1`
step, so no operation in the Rust code ever wraps, and `ℕ` arithmetic
coincides with `u64` arithmetic on every value the code manipulates.
The `while` loop is embedded with an explicit fuel parameter: `genFrom`
returns `none` when the fuel runs out, and `some trajectory` when the loop
exits within the given number of iterations.
-/

/-- Maximum value of a 64-bit unsigned integer (`u64::MAX`). -/
def U64_MAX : ℕ := 2 ^ 64 - 1

/-- One Collatz transition: `n / 2` for even `n`, `3 * n + 1` for odd `n`
(the rule applied by the loop body of `generate_sequence`). -/
def collatzStep (n : ℕ) : ℕ :=
  if n % 2 = 0 then n / 2 else 3 * n + 1

/-- Fuel-indexed embedding of the `while current != 1` loop of
`generate_sequence`, producing the part of the sequence from `current`
(inclusive) onward.  Mirrors the Rust loop body exactly: stop at 1; halve
when even; when odd, either push `current` once more and break if
`current > (u64::MAX - 1) / 3`, or continue with `3 * current + 1`. -/
def genFrom : ℕ → ℕ → Option (List ℕ)
  | 0, _ => none
  | fuel + 1, current =>
    if current = 1 then
      some [1]
    else if current % 2 = 0 then
      (genFrom fuel (current / 2)).map (fun t => current :: t)
    else if (U64_MAX - 1) / 3 < current then
      some [current, current]
    else
      (genFrom fuel (3 * current + 1)).map (fun t => current :: t)

/-- Embedding of `generate_sequence`: seed 0 returns `[0]` immediately;
otherwise the loop runs from the seed.  `fuel` bounds the number of loop
iterations the embedding is willing to execute. -/
def generate_sequence (fuel start : ℕ) : Option (List ℕ) :=
  if start = 0 then some [0] else genFrom fuel start

/-- Embedding of the Rust struct `CollatzStats`. -/
structure CollatzStats where
  length : ℕ
  max_value : ℕ
  max_value_index : ℕ
  even_count : ℕ
  odd_count : ℕ
  stopping_time : ℕ
deriving DecidableEq

/-- One step of Rust's `Iterator::max_by_key` fold over `(index, value)`
pairs: keep the accumulator only when its key (the value component) is
strictly greater, so ties go to the later element. -/
def maxStep (acc p : ℕ × ℕ) : ℕ × ℕ :=
  if acc.2 > p.2 then acc else p

/-- The `(max_value_index, max_value)` pair computed by
`sequence.iter().enumerate().max_by_key(...).unwrap_or((0, &0))`. -/
def maxPair (sequence : List ℕ) : ℕ × ℕ :=
  match sequence.enum with
  | [] => (0, 0)
  | p :: rest => rest.foldl maxStep p

/-- Embedding of `calculate_stats`: default all-zero record on the empty
slice, otherwise the four scans of the Rust function. -/
def calculate_stats (sequence : List ℕ) : CollatzStats :=
  if sequence = [] then
    ⟨0, 0, 0, 0, 0, 0⟩
  else
    let start_value := sequence.headD 0
    let length := sequence.length
    let m := maxPair sequence
    let even_count := (sequence.filter (fun n => n % 2 = 0)).length
    let odd_count := length - even_count
    let stopping_time :=
      (((sequence.enum.drop 1).find? (fun p => decide (p.2 < start_value))).map
        Prod.fst).getD (length - 1)
    ⟨length, m.2, m.1, even_count, odd_count, stopping_time⟩

lemma genFrom_succ (fuel current : ℕ) :
    genFrom (fuel + 1) current =
      if current = 1 then some [1]
      else if current % 2 = 0 then
        (genFrom fuel (current / 2)).map (fun t => current :: t)
      else if (U64_MAX - 1) / 3 < current then some [current, current]
      else (genFrom fuel (3 * current + 1)).map (fun t => current :: t) := rfl

lemma genFrom_cons (fuel : ℕ) : ∀ c t, genFrom fuel c = some t → ∃ r, t = c :: r := by
  cases fuel with
  | zero => intro c t h; simp [genFrom] at h
  | succ fuel =>
    intro c t h
    simp only [genFrom] at h
    by_cases h1 : c = 1
    · rw [if_pos h1] at h
      injection h with h
      exact ⟨[], by rw [← h, h1]⟩
    · rw [if_neg h1] at h
      by_cases h2 : c % 2 = 0
      · rw [if_pos h2] at h
        rcases Option.map_eq_some'.mp h with ⟨t0, _, ht⟩
        exact ⟨t0, ht.symm⟩
      · rw [if_neg h2] at h
        by_cases h3 : (U64_MAX - 1) / 3 < c
        · rw [if_pos h3] at h
          injection h with h
          exact ⟨[c], h.symm⟩
        · rw [if_neg h3] at h
          rcases Option.map_eq_some'.mp h with ⟨t0, _, ht⟩
          exact ⟨t0, ht.symm⟩

lemma getLast?_cons_cons (a b : ℕ) (l : List ℕ) :
    (a :: b :: l).getLast? = (b :: l).getLast? := rfl

/-- Chain property of the loop: consecutive elements of a produced
trajectory follow `collatzStep`, except that a guard-truncated trajectory
repeats its (odd, above-guard) final value. -/
lemma genFrom_chain (fuel : ℕ) : ∀ c t, genFrom fuel c = some t →
    ∀ i, i + 1 < t.length →
      t.getD (i + 1) 0 = collatzStep (t.getD i 0) ∨
      (i + 2 = t.length ∧ t.getD i 0 % 2 = 1 ∧
        (U64_MAX - 1) / 3 < t.getD i 0 ∧ t.getD (i + 1) 0 = t.getD i 0) := by
  induction fuel with
  | zero => intro c t h; simp [genFrom] at h
  | succ fuel ih =>
    intro c t h
    simp only [genFrom] at h
    by_cases h1 : c = 1
    · rw [if_pos h1] at h
      injection h with h
      intro i hi
      rw [← h] at hi
      simp at hi
    · rw [if_neg h1] at h
      by_cases h2 : c % 2 = 0
      · rw [if_pos h2] at h
        rcases Option.map_eq_some'.mp h with ⟨t0, hg, ht⟩
        subst ht
        rcases genFrom_cons fuel _ _ hg with ⟨r, hr⟩
        intro i hi
        cases i with
        | zero =>
          left
          simp only [List.getD_cons_succ, List.getD_cons_zero, hr]
          simp [collatzStep, h2]
        | succ i0 =>
          simp only [List.length_cons] at hi
          have hi0 : i0 + 1 < t0.length := by omega
          have := ih _ _ hg i0 hi0
          simp only [List.getD_cons_succ, List.length_cons]
          rcases this with hl | ⟨hlen, hmod, hgt, heq⟩
          · exact Or.inl hl
          · exact Or.inr ⟨by omega, hmod, hgt, heq⟩
      · rw [if_neg h2] at h
        by_cases h3 : (U64_MAX - 1) / 3 < c
        · rw [if_pos h3] at h
          injection h with h
          subst h
          intro i hi
          simp only [List.length_cons, List.length_nil] at hi
          have hz : i = 0 := by omega
          subst hz
          right
          refine ⟨rfl, ?_, h3, rfl⟩
          simp only [List.getD_cons_zero]
          omega
        · rw [if_neg h3] at h
          rcases Option.map_eq_some'.mp h with ⟨t0, hg, ht⟩
          subst ht
          rcases genFrom_cons fuel _ _ hg with ⟨r, hr⟩
          intro i hi
          cases i with
          | zero =>
            left
            simp only [List.getD_cons_succ, List.getD_cons_zero, hr]
            simp [collatzStep, h2]
          | succ i0 =>
            simp only [List.length_cons] at hi
            have hi0 : i0 + 1 < t0.length := by omega
            have := ih _ _ hg i0 hi0
            simp only [List.getD_cons_succ, List.length_cons]
            rcases this with hl | ⟨hlen, hmod, hgt, heq⟩
            · exact Or.inl hl
            · exact Or.inr ⟨by omega, hmod, hgt, heq⟩

/-- C2 (counterexample): at the odd seed `2^63 + 1` the guard fires on the
first iteration, the trajectory is the pair `[seed, seed]`, and its second
element is not the Collatz transition of the first. -/
theorem generate_sequence_step_counterexample :
    1 ≤ 2 ^ 63 + 1 ∧
    generate_sequence 1 (2 ^ 63 + 1) = some [2 ^ 63 + 1, 2 ^ 63 + 1] ∧
    ¬ ([2 ^ 63 + 1, 2 ^ 63 + 1].getD 1 0 =
        collatzStep ([2 ^ 63 + 1, 2 ^ 63 + 1].getD 0 0)) := by
  refine ⟨by decide, by decide, by decide⟩

/-- C2 (amended): for every seed ≥ 1 and every trajectory the embedding
returns, each element after the first is the Collatz transition of its
predecessor, except that the final element of a guard-truncated trajectory
instead repeats its predecessor (which is odd and above the guard). -/
theorem generate_sequence_step_amended (fuel seed : ℕ) (t : List ℕ)
    (hseed : 1 ≤ seed) (hgen : generate_sequence fuel seed = some t) :
    ∀ i, i + 1 < t.length →
      t.getD (i + 1) 0 = collatzStep (t.getD i 0) ∨
      (i + 2 = t.length ∧ t.getD i 0 % 2 = 1 ∧
        (U64_MAX - 1) / 3 < t.getD i 0 ∧ t.getD (i + 1) 0 = t.getD i 0) := by
  have h0 : seed ≠ 0 := by omega
  rw [generate_sequence, if_neg h0] at hgen
  exact genFrom_chain fuel seed t hgen

/-- Witness for the amended C2 at seed 6, fuel 9, index 0. -/
theorem generate_sequence_step_amended_witness :
    1 ≤ 6 ∧ generate_sequence 9 6 = some [6, 3, 10, 5, 16, 8, 4, 2, 1] ∧
    0 + 1 < ([6, 3, 10, 5, 16, 8, 4, 2, 1] : List ℕ).length ∧
    (([6, 3, 10, 5, 16, 8, 4, 2, 1] : List ℕ).getD (0 + 1) 0 =
        collatzStep (([6, 3, 10, 5, 16, 8, 4, 2, 1] : List ℕ).getD 0 0) ∨
      (0 + 2 = ([6, 3, 10, 5, 16, 8, 4, 2, 1] : List ℕ).length ∧
        ([6, 3, 10, 5, 16, 8, 4, 2, 1] : List ℕ).getD 0 0 % 2 = 1 ∧
        (U64_MAX - 1) / 3 < ([6, 3, 10, 5, 16, 8, 4, 2, 1] : List ℕ).getD 0 0 ∧
        ([6, 3, 10, 5, 16, 8, 4, 2, 1] : List ℕ).getD (0 + 1) 0 =
          ([6, 3, 10, 5, 16, 8, 4, 2, 1] : List ℕ).getD 0 0)) :=
  ⟨by decide, by decide, by decide,
    generate_sequence_step_amended 9 6 [6, 3, 10, 5, 16, 8, 4, 2, 1]
      (by decide) (by decide) 0 (by decide)⟩

/-- Trajectory values before the final element are never 1, and a
normally terminated trajectory contains 1 exactly once. -/
lemma genFrom_one_once (fuel : ℕ) : ∀ c t, genFrom fuel c = some t →
    t.getLast? = some 1 →
    t.count 1 = 1 ∧ ∀ i, i + 1 < t.length → t.getD i 0 ≠ 1 := by
  induction fuel with
  | zero => intro c t h; simp [genFrom] at h
  | succ fuel ih =>
    intro c t h hlast
    simp only [genFrom] at h
    by_cases h1 : c = 1
    · rw [if_pos h1] at h
      injection h with h
      subst h
      refine ⟨by decide, ?_⟩
      intro i hi
      simp only [List.length_singleton] at hi
      omega
    · rw [if_neg h1] at h
      by_cases h2 : c % 2 = 0
      · rw [if_pos h2] at h
        rcases Option.map_eq_some'.mp h with ⟨t0, hg, ht⟩
        subst ht
        rcases genFrom_cons fuel _ _ hg with ⟨r, hr⟩
        rw [hr, getLast?_cons_cons, ← hr] at hlast
        rcases ih _ _ hg hlast with ⟨hc, hp⟩
        constructor
        · rw [List.count_cons_of_ne (Ne.symm h1)]
          exact hc
        · intro i hi
          cases i with
          | zero => simpa using h1
          | succ i0 =>
            simp only [List.length_cons] at hi
            simp only [List.getD_cons_succ]
            exact hp i0 (by omega)
      · rw [if_neg h2] at h
        by_cases h3 : (U64_MAX - 1) / 3 < c
        · rw [if_pos h3] at h
          injection h with h
          subst h
          exfalso
          have hc1 : some c = some 1 := hlast
          injection hc1 with hc1
          rw [hc1] at h3
          exact absurd h3 (by decide)
        · rw [if_neg h3] at h
          rcases Option.map_eq_some'.mp h with ⟨t0, hg, ht⟩
          subst ht
          rcases genFrom_cons fuel _ _ hg with ⟨r, hr⟩
          rw [hr, getLast?_cons_cons, ← hr] at hlast
          rcases ih _ _ hg hlast with ⟨hc, hp⟩
          constructor
          · rw [List.count_cons_of_ne (Ne.symm h1)]
            exact hc
          · intro i hi
            cases i with
            | zero => simpa using h1
            | succ i0 =>
              simp only [List.length_cons] at hi
              simp only [List.getD_cons_succ]
              exact hp i0 (by omega)

/-- C6: whenever the embedding returns a trajectory whose last element is 1
(normal termination), 1 occurs exactly once in it, and every element before
the final one differs from 1. -/
theorem generate_sequence_one_final (fuel seed : ℕ) (t : List ℕ)
    (hgen : generate_sequence fuel seed = some t)
    (hlast : t.getLast? = some 1) :
    t.count 1 = 1 ∧ ∀ i, i + 1 < t.length → t.getD i 0 ≠ 1 := by
  rw [generate_sequence] at hgen
  by_cases h0 : seed = 0
  · rw [if_pos h0] at hgen
    injection hgen with hgen
    subst hgen
    exact absurd hlast (by decide)
  · rw [if_neg h0] at hgen
    exact genFrom_one_once fuel seed t hgen hlast

/-- Witness for C6 on the trajectory of seed 6. -/
theorem generate_sequence_one_final_witness :
    generate_sequence 9 6 = some [6, 3, 10, 5, 16, 8, 4, 2, 1] ∧
    ([6, 3, 10, 5, 16, 8, 4, 2, 1] : List ℕ).getLast? = some 1 ∧
    (([6, 3, 10, 5, 16, 8, 4, 2, 1] : List ℕ).count 1 = 1 ∧
      ∀ i, i + 1 < ([6, 3, 10, 5, 16, 8, 4, 2, 1] : List ℕ).length →
        ([6, 3, 10, 5, 16, 8, 4, 2, 1] : List ℕ).getD i 0 ≠ 1) :=
  ⟨by decide, by decide,
    generate_sequence_one_final 9 6 [6, 3, 10, 5, 16, 8, 4, 2, 1]
      (by decide) (by decide)⟩

/-- Guard-truncated runs of the loop produce a list ending in a doubled
value. -/
lemma genFrom_guard_dup (fuel : ℕ) : ∀ c t, genFrom fuel c = some t →
    (U64_MAX - 1) / 3 < t.getLast?.getD 0 →
    ∃ l v, t = l ++ [v, v] := by
  induction fuel with
  | zero => intro c t h; simp [genFrom] at h
  | succ fuel ih =>
    intro c t h htr
    simp only [genFrom] at h
    by_cases h1 : c = 1
    · rw [if_pos h1] at h
      injection h with h
      subst h
      exact absurd htr (by decide)
    · rw [if_neg h1] at h
      by_cases h2 : c % 2 = 0
      · rw [if_pos h2] at h
        rcases Option.map_eq_some'.mp h with ⟨t0, hg, ht⟩
        subst ht
        rcases genFrom_cons fuel _ _ hg with ⟨r, hr⟩
        rw [hr, getLast?_cons_cons, ← hr] at htr
        rcases ih _ _ hg htr with ⟨l, v, hl⟩
        exact ⟨c :: l, v, by rw [hl, List.cons_append]⟩
      · rw [if_neg h2] at h
        by_cases h3 : (U64_MAX - 1) / 3 < c
        · rw [if_pos h3] at h
          injection h with h
          subst h
          exact ⟨[], c, rfl⟩
        · rw [if_neg h3] at h
          rcases Option.map_eq_some'.mp h with ⟨t0, hg, ht⟩
          subst ht
          rcases genFrom_cons fuel _ _ hg with ⟨r, hr⟩
          rw [hr, getLast?_cons_cons, ← hr] at htr
          rcases ih _ _ hg htr with ⟨l, v, hl⟩
          exact ⟨c :: l, v, by rw [hl, List.cons_append]⟩

lemma append_pair_getD (l : List ℕ) (v : ℕ) :
    (l ++ [v, v]).getD l.length 0 = v ∧
    (l ++ [v, v]).getD (l.length + 1) 0 = v := by
  induction l with
  | nil => exact ⟨rfl, rfl⟩
  | cons x xs ih =>
    simpa [List.cons_append, List.length_cons, List.getD_cons_succ] using ih

/-- C10: whenever the returned trajectory ends above the overflow guard
(which happens exactly on guard truncation), it has at least two elements
and its last two elements are equal. -/
theorem generate_sequence_guard_dup (fuel seed : ℕ) (t : List ℕ)
    (hgen : generate_sequence fuel seed = some t)
    (htrunc : (U64_MAX - 1) / 3 < t.getLast?.getD 0) :
    2 ≤ t.length ∧ t.getD (t.length - 1) 0 = t.getD (t.length - 2) 0 := by
  rw [generate_sequence] at hgen
  by_cases h0 : seed = 0
  · rw [if_pos h0] at hgen
    injection hgen with hgen
    subst hgen
    exact absurd htrunc (by decide)
  · rw [if_neg h0] at hgen
    rcases genFrom_guard_dup fuel seed t hgen htrunc with ⟨l, v, hl⟩
    have hlen : t.length = l.length + 2 := by rw [hl]; simp
    have e1 : t.length - 1 = l.length + 1 := by omega
    have e2 : t.length - 2 = l.length := by omega
    refine ⟨by omega, ?_⟩
    rw [e1, e2, hl, (append_pair_getD l v).1, (append_pair_getD l v).2]

/-- Witness for C10 at the immediately truncating seed `2^63 + 1`. -/
theorem generate_sequence_guard_dup_witness :
    generate_sequence 1 (2 ^ 63 + 1) = some [2 ^ 63 + 1, 2 ^ 63 + 1] ∧
    (U64_MAX - 1) / 3 <
      ([2 ^ 63 + 1, 2 ^ 63 + 1] : List ℕ).getLast?.getD 0 ∧
    (2 ≤ ([2 ^ 63 + 1, 2 ^ 63 + 1] : List ℕ).length ∧
      ([2 ^ 63 + 1, 2 ^ 63 + 1] : List ℕ).getD
          (([2 ^ 63 + 1, 2 ^ 63 + 1] : List ℕ).length - 1) 0 =
        ([2 ^ 63 + 1, 2 ^ 63 + 1] : List ℕ).getD
          (([2 ^ 63 + 1, 2 ^ 63 + 1] : List ℕ).length - 2) 0) :=
  ⟨by decide, by decide,
    generate_sequence_guard_dup 1 (2 ^ 63 + 1) [2 ^ 63 + 1, 2 ^ 63 + 1]
      (by decide) (by decide)⟩

/-- Truncating runs: if the pure Collatz iteration from `c` first reaches
an odd above-guard value at step `k` without having reached 1, then the
loop terminates within `k + 1` iterations and its output ends with that
pre-overflow value. -/
lemma genFrom_truncates (k : ℕ) : ∀ c,
    (∀ j, j < k → collatzStep^[j] c ≠ 1 ∧
      (collatzStep^[j] c % 2 = 1 → collatzStep^[j] c ≤ (U64_MAX - 1) / 3)) →
    collatzStep^[k] c % 2 = 1 → (U64_MAX - 1) / 3 < collatzStep^[k] c →
    ∃ t, genFrom (k + 1) c = some t ∧
      t.getLast? = some (collatzStep^[k] c) := by
  induction k with
  | zero =>
    intro c _ hodd hbig
    simp only [Function.iterate_zero, id] at hodd hbig ⊢
    have h1 : c ≠ 1 := by
      intro hc
      rw [hc] at hbig
      exact absurd hbig (by decide)
    have h2 : ¬ c % 2 = 0 := by omega
    refine ⟨[c, c], ?_, rfl⟩
    rw [genFrom_succ, if_neg h1, if_neg h2, if_pos hbig]
  | succ k ih =>
    intro c hpre hodd hbig
    have h0 := hpre 0 (by omega)
    simp only [Function.iterate_zero, id] at h0
    have h1 : c ≠ 1 := h0.1
    rw [Function.iterate_succ_apply] at hodd hbig
    have hpre' : ∀ j, j < k → collatzStep^[j] (collatzStep c) ≠ 1 ∧
        (collatzStep^[j] (collatzStep c) % 2 = 1 →
          collatzStep^[j] (collatzStep c) ≤ (U64_MAX - 1) / 3) := by
      intro j hj
      have := hpre (j + 1) (by omega)
      rwa [Function.iterate_succ_apply] at this
    rcases ih (collatzStep c) hpre' hodd hbig with ⟨t, hg, hl⟩
    rcases genFrom_cons _ _ _ hg with ⟨r, hr⟩
    subst hr
    by_cases h2 : c % 2 = 0
    · have hstep : collatzStep c = c / 2 := by rw [collatzStep, if_pos h2]
      refine ⟨c :: collatzStep c :: r, ?_, ?_⟩
      · rw [genFrom_succ, if_neg h1, if_pos h2, ← hstep, hg]
        rfl
      · rw [Function.iterate_succ_apply, ← hl]
        exact getLast?_cons_cons _ _ _
    · have hmod : c % 2 = 1 := by omega
      have hle : c ≤ (U64_MAX - 1) / 3 := h0.2 hmod
      have hstep : collatzStep c = 3 * c + 1 := by rw [collatzStep, if_neg h2]
      refine ⟨c :: collatzStep c :: r, ?_, ?_⟩
      · rw [genFrom_succ, if_neg h1, if_neg h2, if_neg (not_lt.mpr hle), ← hstep, hg]
        rfl
      · rw [Function.iterate_succ_apply, ← hl]
        exact getLast?_cons_cons _ _ _

/-- C5: for every seed whose Collatz iteration first reaches an odd value
above `(u64::MAX - 1) / 3` at some step `k` without having reached 1, the
generator terminates within `k + 1` loop iterations, the last trajectory
element is that pre-overflow value, which is not 1; moreover `3 * c + 1`
stays within `u64` whenever the guard lets it be computed. -/
theorem generate_sequence_truncation (seed k : ℕ)
    (hpre : ∀ j, j < k → collatzStep^[j] seed ≠ 1 ∧
      (collatzStep^[j] seed % 2 = 1 →
        collatzStep^[j] seed ≤ (U64_MAX - 1) / 3))
    (hodd : collatzStep^[k] seed % 2 = 1)
    (hbig : (U64_MAX - 1) / 3 < collatzStep^[k] seed) :
    (∃ t, generate_sequence (k + 1) seed = some t ∧
      t.getLast? = some (collatzStep^[k] seed) ∧
      collatzStep^[k] seed ≠ 1) ∧
    ∀ c, c ≤ (U64_MAX - 1) / 3 → 3 * c + 1 ≤ U64_MAX := by
  have hMAX : U64_MAX = 18446744073709551615 := by norm_num [U64_MAX]
  constructor
  · have h0 : seed ≠ 0 := by
      intro hs
      rw [hs] at hodd
      have hz : collatzStep 0 = 0 := by simp [collatzStep]
      rw [Function.iterate_fixed hz] at hodd
      omega
    rcases genFrom_truncates k seed hpre hodd hbig with ⟨t, hg, hl⟩
    refine ⟨t, ?_, hl, ?_⟩
    · rw [generate_sequence, if_neg h0]
      exact hg
    · intro hone
      rw [hone, hMAX] at hbig
      omega
  · intro c hc
    rw [hMAX] at hc ⊢
    omega

/-- Witness for C5 at the immediately truncating seed `2^63 + 1`, step 0. -/
theorem generate_sequence_truncation_witness :
    collatzStep^[0] (2 ^ 63 + 1) % 2 = 1 ∧
    (U64_MAX - 1) / 3 < collatzStep^[0] (2 ^ 63 + 1) ∧
    ((∃ t, generate_sequence (0 + 1) (2 ^ 63 + 1) = some t ∧
        t.getLast? = some (collatzStep^[0] (2 ^ 63 + 1)) ∧
        collatzStep^[0] (2 ^ 63 + 1) ≠ 1) ∧
      ∀ c, c ≤ (U64_MAX - 1) / 3 → 3 * c + 1 ≤ U64_MAX) :=
  ⟨by decide, by decide,
    generate_sequence_truncation (2 ^ 63 + 1) 0
      (fun j hj => absurd hj (Nat.not_lt_zero j)) (by decide) (by decide)⟩

/-- C7: the worked example of the spec and of the repository's unit tests:
the trajectory of 6 and all six statistics fields on it. -/
theorem generate_six_and_stats :
    generate_sequence 9 6 = some [6, 3, 10, 5, 16, 8, 4, 2, 1] ∧
    calculate_stats [6, 3, 10, 5, 16, 8, 4, 2, 1] =
      ⟨9, 16, 4, 6, 3, 1⟩ := by
  constructor <;> decide

/-- C8: seed 0 yields `[0]` for any fuel (the special case runs before the
loop), and seed 1 yields `[1]` as soon as the loop may run. -/
theorem generate_degenerate_seeds (fuel : ℕ) :
    generate_sequence fuel 0 = some [0] ∧
    (1 ≤ fuel → generate_sequence fuel 1 = some [1]) := by
  constructor
  · rfl
  · intro h
    obtain ⟨f, rfl⟩ : ∃ f, fuel = f + 1 := ⟨fuel - 1, by omega⟩
    rfl

/-- Witness for C8 at fuel 1. -/
theorem generate_degenerate_seeds_witness :
    generate_sequence 1 0 = some [0] ∧
    (1 ≤ 1 ∧ generate_sequence 1 1 = some [1]) :=
  ⟨(generate_degenerate_seeds 1).1, by decide,
    (generate_degenerate_seeds 1).2 (by decide)⟩

lemma calculate_stats_cons (x : ℕ) (xs : List ℕ) :
    calculate_stats (x :: xs) =
      ⟨(x :: xs).length, (maxPair (x :: xs)).2, (maxPair (x :: xs)).1,
        ((x :: xs).filter (fun n => n % 2 = 0)).length,
        (x :: xs).length - ((x :: xs).filter (fun n => n % 2 = 0)).length,
        ((((x :: xs).enum.drop 1).find? (fun p => decide (p.2 < x))).map
          Prod.fst).getD ((x :: xs).length - 1)⟩ := by
  rw [calculate_stats, if_neg (by simp)]
  rfl

lemma maxPair_cons (x : ℕ) (xs : List ℕ) :
    maxPair (x :: xs) = (xs.enumFrom 1).foldl maxStep (0, x) := rfl

lemma enum_cons_drop (x : ℕ) (xs : List ℕ) :
    (x :: xs).enum.drop 1 = xs.enumFrom 1 := rfl

lemma enumFrom_spec (l : List ℕ) : ∀ k p, p ∈ l.enumFrom k →
    k ≤ p.1 ∧ p.1 - k < l.length ∧ l.getD (p.1 - k) 0 = p.2 := by
  induction l with
  | nil => intro k p hp; simp at hp
  | cons x xs ih =>
    intro k p hp
    simp only [List.enumFrom] at hp
    rcases List.mem_cons.mp hp with hp | hp
    · subst hp
      refine ⟨le_refl k, ?_, ?_⟩ <;> simp
    · rcases ih (k + 1) p hp with ⟨h1, h2, h3⟩
      refine ⟨by omega, ?_, ?_⟩
      · simp only [List.length_cons]
        omega
      · have he : p.1 - k = (p.1 - (k + 1)) + 1 := by omega
        rw [he, List.getD_cons_succ]
        exact h3

lemma enumFrom_pairwise (l : List ℕ) : ∀ k,
    List.Pairwise (fun a b : ℕ × ℕ => a.1 < b.1) (l.enumFrom k) := by
  induction l with
  | nil => intro k; simp
  | cons x xs ih =>
    intro k
    simp only [List.enumFrom]
    refine List.Pairwise.cons ?_ (ih (k + 1))
    intro p hp
    have := (enumFrom_spec xs (k + 1) p hp).1
    show k < p.1
    omega

lemma enumFrom_getD_mem (l : List ℕ) : ∀ k i, i < l.length →
    (k + i, l.getD i 0) ∈ l.enumFrom k := by
  induction l with
  | nil => intro k i hi; simp at hi
  | cons x xs ih =>
    intro k i hi
    cases i with
    | zero => simp [List.enumFrom]
    | succ i0 =>
      simp only [List.length_cons] at hi
      simp only [List.enumFrom, List.getD_cons_succ]
      refine List.mem_cons.mpr (Or.inr ?_)
      have harith : k + (i0 + 1) = (k + 1) + i0 := by omega
      rw [harith]
      exact ih (k + 1) i0 (by omega)

lemma maxStep_or (acc p : ℕ × ℕ) : maxStep acc p = acc ∨ maxStep acc p = p := by
  rw [maxStep]
  split
  · exact Or.inl rfl
  · exact Or.inr rfl

lemma maxStep_snd_le_left (acc p : ℕ × ℕ) : acc.2 ≤ (maxStep acc p).2 := by
  rw [maxStep]
  split <;> omega

lemma maxStep_snd_le_right (acc p : ℕ × ℕ) : p.2 ≤ (maxStep acc p).2 := by
  rw [maxStep]
  split <;> omega

lemma foldl_maxStep_mem (ps : List (ℕ × ℕ)) : ∀ p,
    ps.foldl maxStep p = p ∨ ps.foldl maxStep p ∈ ps := by
  induction ps with
  | nil => intro p; exact Or.inl rfl
  | cons q rest ih =>
    intro p
    simp only [List.foldl_cons]
    rcases ih (maxStep p q) with h | h
    · rcases maxStep_or p q with h' | h'
      · exact Or.inl (h.trans h')
      · exact Or.inr (List.mem_cons.mpr (Or.inl (h.trans h')))
    · exact Or.inr (List.mem_cons.mpr (Or.inr h))

lemma foldl_maxStep_ge (ps : List (ℕ × ℕ)) : ∀ p,
    p.2 ≤ (ps.foldl maxStep p).2 ∧ ∀ q ∈ ps, q.2 ≤ (ps.foldl maxStep p).2 := by
  induction ps with
  | nil => intro p; exact ⟨le_refl _, by simp⟩
  | cons q rest ih =>
    intro p
    simp only [List.foldl_cons]
    rcases ih (maxStep p q) with ⟨h1, h2⟩
    refine ⟨le_trans (maxStep_snd_le_left p q) h1, ?_⟩
    intro q' hq'
    rcases List.mem_cons.mp hq' with rfl | hq'
    · exact le_trans (maxStep_snd_le_right p _) h1
    · exact h2 q' hq'

/-- The `max_by_key` fold selects, among the elements carrying the maximal
value, the one with the greatest index, provided indices increase along the
list (which is the case for `enumerate`). -/
lemma foldl_maxStep_last (ps : List (ℕ × ℕ)) : ∀ p,
    (∀ q ∈ ps, p.1 < q.1) →
    List.Pairwise (fun a b : ℕ × ℕ => a.1 < b.1) ps →
    ∀ q, (q = p ∨ q ∈ ps) → q.2 = (ps.foldl maxStep p).2 →
    q.1 ≤ (ps.foldl maxStep p).1 := by
  induction ps with
  | nil =>
    intro p _ _ q hq _
    rcases hq with rfl | hq
    · exact le_refl _
    · simp at hq
  | cons r rest ih =>
    intro p hlt hpw q hq hq2
    rcases List.pairwise_cons.mp hpw with ⟨hrlt, hpw'⟩
    simp only [List.foldl_cons] at hq2 ⊢
    by_cases hpr : p.2 > r.2
    · have hacc : maxStep p r = p := by rw [maxStep, if_pos hpr]
      rw [hacc] at hq2 ⊢
      have hlt'' : ∀ q' ∈ rest, p.1 < q'.1 := fun q' hq' =>
        hlt q' (List.mem_cons_of_mem r hq')
      rcases hq with rfl | hq
      · exact ih q hlt'' hpw' q (Or.inl rfl) hq2
      · rcases List.mem_cons.mp hq with rfl | hq
        · exfalso
          have hge := (foldl_maxStep_ge rest p).1
          omega
        · exact ih p hlt'' hpw' q (Or.inr hq) hq2
    · have hacc : maxStep p r = r := by rw [maxStep, if_neg hpr]
      rw [hacc] at hq2 ⊢
      rcases hq with rfl | hq
      · have hge := (foldl_maxStep_ge rest r).1
        have hr2 : r.2 = (rest.foldl maxStep r).2 := by omega
        have hr1 := ih r hrlt hpw' r (Or.inl rfl) hr2
        have hp1 := hlt r (List.mem_cons_self r rest)
        omega
      · rcases List.mem_cons.mp hq with rfl | hq
        · exact ih q hrlt hpw' q (Or.inl rfl) hq2
        · exact ih _ hrlt hpw' q (Or.inr hq) hq2

/-- C3: on any non-empty trajectory, `max_value` is the maximum element
and `max_value_index` is the last index where it occurs; in particular the
synthetic tie `[5, 8, 3, 8, 1]` yields `max_value = 8` at index 3. -/
theorem calculate_stats_max_spec (l : List ℕ) (h : l ≠ []) :
    ((calculate_stats l).max_value_index < l.length ∧
      l.getD (calculate_stats l).max_value_index 0 = (calculate_stats l).max_value ∧
      (∀ i, i < l.length → l.getD i 0 ≤ (calculate_stats l).max_value) ∧
      (∀ i, i < l.length → (calculate_stats l).max_value_index < i →
        l.getD i 0 ≠ (calculate_stats l).max_value)) ∧
    (calculate_stats [5, 8, 3, 8, 1]).max_value = 8 ∧
    (calculate_stats [5, 8, 3, 8, 1]).max_value_index = 3 := by
  refine ⟨?_, by decide, by decide⟩
  obtain ⟨x, xs, rfl⟩ : ∃ x xs, l = x :: xs := by
    cases l with
    | nil => simp at h
    | cons a as => exact ⟨a, as, rfl⟩
  have hmv : (calculate_stats (x :: xs)).max_value = (maxPair (x :: xs)).2 := by
    rw [calculate_stats_cons]
  have hmi : (calculate_stats (x :: xs)).max_value_index = (maxPair (x :: xs)).1 := by
    rw [calculate_stats_cons]
  rw [hmv, hmi, maxPair_cons]
  set r := (xs.enumFrom 1).foldl maxStep (0, x) with hr
  have hlt0 : ∀ q ∈ xs.enumFrom 1, ((0, x) : ℕ × ℕ).1 < q.1 := by
    intro q hq
    have := (enumFrom_spec xs 1 q hq).1
    show 0 < q.1
    omega
  have hge := foldl_maxStep_ge (xs.enumFrom 1) (0, x)
  have hloc : r.1 < (x :: xs).length ∧ (x :: xs).getD r.1 0 = r.2 := by
    rcases foldl_maxStep_mem (xs.enumFrom 1) (0, x) with hm | hm
    · rw [← hr] at hm
      rw [hm]
      exact ⟨by simp, rfl⟩
    · rw [← hr] at hm
      rcases enumFrom_spec xs 1 r hm with ⟨h1, h2, h3⟩
      constructor
      · simp only [List.length_cons]
        omega
      · have he : r.1 = (r.1 - 1) + 1 := by omega
        rw [he, List.getD_cons_succ]
        exact h3
  refine ⟨hloc.1, hloc.2, ?_, ?_⟩
  · intro i hi
    cases i with
    | zero =>
      simpa using hge.1
    | succ i0 =>
      simp only [List.length_cons] at hi
      have hmem := enumFrom_getD_mem xs 1 i0 (by omega)
      have := hge.2 _ hmem
      simpa using this
  · intro i hi hgt hEq
    have hi1 : 1 ≤ i := by omega
    have hmem := enumFrom_getD_mem xs 1 (i - 1) (by simp only [List.length_cons] at hi; omega)
    have hq2 : ((1 + (i - 1), xs.getD (i - 1) 0) : ℕ × ℕ).2 = r.2 := by
      show xs.getD (i - 1) 0 = r.2
      have he : i = (i - 1) + 1 := by omega
      rw [he, List.getD_cons_succ] at hEq
      exact hEq
    have hlast := foldl_maxStep_last (xs.enumFrom 1) (0, x) hlt0
      (enumFrom_pairwise xs 1) _ (Or.inr hmem) hq2
    have : 1 + (i - 1) ≤ r.1 := hlast
    omega

/-- Witness for C3 on the synthetic tie trajectory `[5, 8, 3, 8, 1]`. -/
theorem calculate_stats_max_spec_witness :
    ([5, 8, 3, 8, 1] : List ℕ) ≠ [] ∧
    (((calculate_stats [5, 8, 3, 8, 1]).max_value_index <
        ([5, 8, 3, 8, 1] : List ℕ).length ∧
      ([5, 8, 3, 8, 1] : List ℕ).getD
          (calculate_stats [5, 8, 3, 8, 1]).max_value_index 0 =
        (calculate_stats [5, 8, 3, 8, 1]).max_value ∧
      (∀ i, i < ([5, 8, 3, 8, 1] : List ℕ).length →
        ([5, 8, 3, 8, 1] : List ℕ).getD i 0 ≤
          (calculate_stats [5, 8, 3, 8, 1]).max_value) ∧
      (∀ i, i < ([5, 8, 3, 8, 1] : List ℕ).length →
        (calculate_stats [5, 8, 3, 8, 1]).max_value_index < i →
        ([5, 8, 3, 8, 1] : List ℕ).getD i 0 ≠
          (calculate_stats [5, 8, 3, 8, 1]).max_value)) ∧
    (calculate_stats [5, 8, 3, 8, 1]).max_value = 8 ∧
    (calculate_stats [5, 8, 3, 8, 1]).max_value_index = 3) :=
  ⟨by decide, calculate_stats_max_spec [5, 8, 3, 8, 1] (by decide)⟩

/-- Behaviour of `find?` over an enumeration suffix: a `none` result means
no element satisfies the search, and a `some (i, v)` result locates the
first satisfying element. -/
lemma find?_enumFrom_spec (s : ℕ) (xs : List ℕ) : ∀ k,
    (((xs.enumFrom k).find? (fun p => decide (p.2 < s))) = none →
      ∀ j, j < xs.length → ¬ xs.getD j 0 < s) ∧
    (∀ i v, ((xs.enumFrom k).find? (fun p => decide (p.2 < s))) = some (i, v) →
      k ≤ i ∧ i - k < xs.length ∧ xs.getD (i - k) 0 = v ∧ v < s ∧
      ∀ j, j < i - k → ¬ xs.getD j 0 < s) := by
  induction xs with
  | nil =>
    intro k
    constructor
    · intro _ j hj
      simp at hj
    · intro i v hfind
      simp at hfind
  | cons x xs ih =>
    intro k
    constructor
    · intro hnone j hj
      simp only [List.enumFrom] at hnone
      by_cases hx : x < s
      · rw [List.find?_cons_of_pos _ (by simpa using hx)] at hnone
        exact absurd hnone (by simp)
      · rw [List.find?_cons_of_neg _ (by simpa using hx)] at hnone
        cases j with
        | zero => simpa using hx
        | succ j0 =>
          simp only [List.length_cons] at hj
          simp only [List.getD_cons_succ]
          exact (ih (k + 1)).1 hnone j0 (by omega)
    · intro i v hfind
      simp only [List.enumFrom] at hfind
      by_cases hx : x < s
      · rw [List.find?_cons_of_pos _ (by simpa using hx)] at hfind
        injection hfind with hfind
        injection hfind with hk hv
        subst hk
        subst hv
        refine ⟨le_refl _, by simp, by simp, hx, ?_⟩
        intro j hj
        omega
      · rw [List.find?_cons_of_neg _ (by simpa using hx)] at hfind
        rcases (ih (k + 1)).2 i v hfind with ⟨h1, h2, h3, h4, h5⟩
        refine ⟨by omega, ?_, ?_, h4, ?_⟩
        · simp only [List.length_cons]
          omega
        · have he : i - k = (i - (k + 1)) + 1 := by omega
          rw [he, List.getD_cons_succ]
          exact h3
        · intro j hj
          cases j with
          | zero => simpa using hx
          | succ j0 =>
            simp only [List.getD_cons_succ]
            exact h5 j0 (by omega)

/-- C4: on any non-empty trajectory, `stopping_time` is the least index
`i ≥ 1` whose element is strictly below element 0 when one exists, and
`length - 1` otherwise. -/
theorem calculate_stats_stopping_spec (l : List ℕ) (h : l ≠ []) :
    ((∀ i, 1 ≤ i → i < l.length → ¬ l.getD i 0 < l.getD 0 0) →
      (calculate_stats l).stopping_time = l.length - 1) ∧
    ∀ i, 1 ≤ i → i < l.length → l.getD i 0 < l.getD 0 0 →
      (∀ j, 1 ≤ j → j < i → ¬ l.getD j 0 < l.getD 0 0) →
      (calculate_stats l).stopping_time = i := by
  obtain ⟨x, xs, rfl⟩ : ∃ x xs, l = x :: xs := by
    cases l with
    | nil => simp at h
    | cons a as => exact ⟨a, as, rfl⟩
  have hst : (calculate_stats (x :: xs)).stopping_time =
      (((xs.enumFrom 1).find? (fun p => decide (p.2 < x))).map Prod.fst).getD
        ((x :: xs).length - 1) := by
    rw [calculate_stats_cons]
    rfl
  rw [hst]
  simp only [List.getD_cons_zero]
  cases hfind : (xs.enumFrom 1).find? (fun p => decide (p.2 < x)) with
  | none =>
    constructor
    · intro _
      simp
    · intro i h1i hiL hlt _
      exfalso
      have hnone := (find?_enumFrom_spec x xs 1).1 hfind
      have hj : i - 1 < xs.length := by
        simp only [List.length_cons] at hiL
        omega
      apply hnone (i - 1) hj
      have he : i = (i - 1) + 1 := by omega
      rw [he, List.getD_cons_succ] at hlt
      exact hlt
  | some p =>
    obtain ⟨i0, v⟩ := p
    rcases (find?_enumFrom_spec x xs 1).2 i0 v hfind with ⟨h1, h2, h3, h4, h5⟩
    constructor
    · intro hnone
      exfalso
      apply hnone i0 h1
      · simp only [List.length_cons]
        omega
      · have he : i0 = (i0 - 1) + 1 := by omega
        rw [he, List.getD_cons_succ, h3]
        exact h4
    · intro i h1i hiL hlt hmin
      simp only [Option.map_some', Option.getD_some]
      rcases lt_trichotomy i0 i with hcmp | hcmp | hcmp
      · exfalso
        apply hmin i0 h1 hcmp
        have he : i0 = (i0 - 1) + 1 := by omega
        rw [he, List.getD_cons_succ, h3]
        exact h4
      · exact hcmp
      · exfalso
        apply h5 (i - 1) (by omega)
        have he : i = (i - 1) + 1 := by omega
        rw [he, List.getD_cons_succ] at hlt
        exact hlt

/-- Witness for C4 on the trajectory of 6: its first element below the
seed sits at index 1, and `stopping_time` equals 1. -/
theorem calculate_stats_stopping_spec_witness :
    ([6, 3, 10, 5, 16, 8, 4, 2, 1] : List ℕ) ≠ [] ∧
    1 ≤ 1 ∧ 1 < ([6, 3, 10, 5, 16, 8, 4, 2, 1] : List ℕ).length ∧
    ([6, 3, 10, 5, 16, 8, 4, 2, 1] : List ℕ).getD 1 0 <
      ([6, 3, 10, 5, 16, 8, 4, 2, 1] : List ℕ).getD 0 0 ∧
    (calculate_stats [6, 3, 10, 5, 16, 8, 4, 2, 1]).stopping_time = 1 :=
  ⟨by decide, by decide, by decide, by decide,
    (calculate_stats_stopping_spec [6, 3, 10, 5, 16, 8, 4, 2, 1] (by decide)).2
      1 (by decide) (by decide) (by decide) (fun j hj1 hj2 => absurd (by omega : (1 : ℕ) ≤ 0) (by decide))⟩

/-- C9: the empty sequence yields the all-zero statistics record. -/
theorem calculate_stats_empty :
    calculate_stats [] = ⟨0, 0, 0, 0, 0, 0⟩ := by
  decide
